import Mathlib

/-!
Verification of the tapestry content-preparation utilities.

Shallow embedding of `validate_url.py`, `sanitize_filename.py`,
`safe_download.py` and `vtt_to_text.py` over `List Char` / `String`,
with theorems checking the natural-language specification.

Strings are modelled as lists of Unicode scalar values (`Char`).  The
CPython library routines the source calls (`urllib.parse.urlparse`,
`str.strip`, `str.upper`, regular expressions over the concrete patterns
appearing in the source) are embedded by direct translation of their
documented behaviour on the constructs the source uses.
-/

namespace Tapestry

/-- Boolean test that `pat` is a leading segment of `l`. -/
def startsWithList : List Char → List Char → Bool
  | [], _ => true
  | _ :: _, [] => false
  | p :: ps, c :: cs => p == c && startsWithList ps cs

/-- Boolean test that `pat` occurs contiguously inside `l` (Python `in`). -/
def containsSub (pat : List Char) : List Char → Bool
  | [] => pat.isEmpty
  | c :: rest => startsWithList pat (c :: rest) || containsSub pat rest

/-- Lower-casing of one character, as `str.lower` acts on the ASCII range. -/
def pyLower (c : Char) : Char := c.toLower

/-- Upper-casing of one character, as `str.upper` acts on the ASCII range. -/
def pyUpper (c : Char) : Char := c.toUpper

/-- Case-insensitive version of `startsWithList`, modelling `re.match`
with `re.IGNORECASE` against a lower-case literal pattern. -/
def startsWithCI (pat : List Char) (l : List Char) : Bool :=
  startsWithList pat (l.map pyLower)

/-! ## validate_url.py -/

/-- The sixteen `172.16.`–`172.31.` literal spellings matched by the source
regex `^172\.(1[6-9]|2[0-9]|3[01])\.`. -/
def blocked172 : List (List Char) :=
  ["172.16.", "172.17.", "172.18.", "172.19.", "172.20.", "172.21.",
   "172.22.", "172.23.", "172.24.", "172.25.", "172.26.", "172.27.",
   "172.28.", "172.29.", "172.30.", "172.31."].map String.data

/-- The `BLOCKED_HOST_PATTERNS` test of `validate_url.py`: each entry of the
source list is an anchored regular expression applied with `re.match` to the
hostname; exact patterns (ending `$`) are equalities, the rest are
leading-segment matches.  The hostname handed to it is already lower-case
(see `pyHostname`), matching `re.IGNORECASE` on the lower-case patterns. -/
def blockedHost (h : List Char) : Bool :=
  (h == "localhost".data) ||
  startsWithList "127.".data h ||
  startsWithList "10.".data h ||
  blocked172.any (fun p => startsWithList p h) ||
  startsWithList "192.168.".data h ||
  (h == "0.0.0.0".data) ||
  (h == "[::1]".data) ||
  startsWithList "[fe80:".data h ||
  startsWithList "169.254.".data h ||
  startsWithList "fc00:".data h ||
  startsWithList "fd00:".data h

/-- Netloc of a URL that begins with `http://` or `https://` (the only shapes
reaching the parse step of `validate_url`): the text after the `//` up to the
first `/`, `?` or `#`, as `urllib.parse.urlsplit` extracts it. -/
def netlocOf (u : List Char) : List Char :=
  let afterScheme :=
    if startsWithCI "https://".data u then u.drop 8 else u.drop 7
  afterScheme.takeWhile (fun c => c ≠ '/' ∧ c ≠ '?' ∧ c ≠ '#')

/-- Text after the last `'@'` of `l` (`str.rpartition('@')`, third component;
the whole string when no `'@'` occurs). -/
def afterLastAt (l : List Char) : List Char :=
  if '@' ∈ l then
    (((l.reverse).takeWhile (fun c => c ≠ '@')).reverse)
  else l

/-- Text before the last `'@'` of `l` when one occurs. -/
def beforeLastAt (l : List Char) : Option (List Char) :=
  if '@' ∈ l then
    some ((((l.reverse).dropWhile (fun c => c ≠ '@')).tail).reverse)
  else none

/-- Hostname extraction of `urllib.parse`: drop userinfo at the last `'@'`;
inside a bracketed IPv6 netloc the hostname is the text between `'['` and
`']'` (the brackets themselves are stripped), otherwise the text before the
first `':'`; the result is lower-cased. -/
def pyHostname (netloc : List Char) : List Char :=
  let hostinfo := afterLastAt netloc
  let host :=
    if '[' ∈ hostinfo then
      ((hostinfo.dropWhile (fun c => c ≠ '[')).tail).takeWhile (fun c => c ≠ ']')
    else
      hostinfo.takeWhile (fun c => c ≠ ':')
  host.map pyLower

/-- Username component of the netloc (`urlparse(...).username`):
the userinfo before its first `':'`, `none` when no `'@'` occurs. -/
def pyUsername (netloc : List Char) : Option (List Char) :=
  (beforeLastAt netloc).map (fun ui => ui.takeWhile (fun c => c ≠ ':'))

/-- Password component of the netloc (`urlparse(...).password`):
the userinfo after its first `':'`, `none` when absent. -/
def pyPassword (netloc : List Char) : Option (List Char) :=
  match beforeLastAt netloc with
  | none => none
  | some ui => if ':' ∈ ui then some ((ui.dropWhile (fun c => c ≠ ':')).tail) else none

/-- Python truthiness of an optional string (`None` and `""` are falsy). -/
def truthy : Option (List Char) → Bool
  | none => false
  | some s => !s.isEmpty

/-- Embedding of `validate_url` (validate_url.py lines 31-82).  The
path-traversal branch only prints a warning and does not affect the returned
pair, so it is omitted from the value-level model. -/
def validate_url (url : String) : Bool × String :=
  let u := url.data
  if u.isEmpty then (false, "No URL provided")
  else if !(startsWithCI "http://".data u || startsWithCI "https://".data u) then
    (false, "Only HTTP/HTTPS URLs supported. Got: " ++ String.mk (u.take 30) ++ "...")
  else if startsWithCI "file://".data u then
    (false, "file:// URLs are not allowed")
  else
    let netloc := netlocOf u
    let host := pyHostname netloc
    if host.isEmpty then (false, "URL has no hostname")
    else if blockedHost host then (false, "Internal/localhost URLs not allowed")
    else if truthy (pyUsername netloc) || truthy (pyPassword netloc) then
      (false, "URLs with embedded credentials not allowed")
    else (true, "valid")

/-! ## sanitize_filename.py -/

/-- Unicode NFC normalization (`unicodedata.normalize("NFC", ...)`), modelled
as the identity map: NFC is the identity on strings without combining or
compatibility characters, and every general theorem below either restricts
its inputs to such strings or does not depend on the normalization step. -/
def nfc (l : List Char) : List Char := l

/-- Category test `unicodedata.category(c).startswith("C")`, modelled on the
`Cc` control ranges U+0000–U+001F and U+007F–U+009F; the remaining
C-categories (format, surrogate, private-use, unassigned) are
Unicode-version-dependent and outside the model. -/
def isCatC (c : Char) : Bool := c.toNat < 32 || (127 ≤ c.toNat && c.toNat ≤ 159)

/-- The `DANGEROUS_CHARS` table of sanitize_filename.py in source order;
each character is replaced by the given (possibly empty) string. -/
def DANGEROUS_CHARS : List (Char × List Char) :=
  [('/', ['_']), ('\\', ['_']), (':', ['-']), ('*', []), ('?', []),
   ('"', []), (Char.ofNat 39, []), ('<', []), ('>', []), ('|', ['-']),
   (Char.ofNat 96, []), ('$', []), (Char.ofNat 0, []), ('\n', [' ']),
   ('\r', []), ('\t', [' '])]

/-- Replace every occurrence of the character `c` by the string `rep`
(`str.replace` with a single-character needle). -/
def replaceChar (c : Char) (rep : List Char) : List Char → List Char
  | [] => []
  | x :: xs => (if x = c then rep else [x]) ++ replaceChar c rep xs

/-- Sequential application of a list of character replacements. -/
def foldReplace (assocs : List (Char × List Char)) (l : List Char) : List Char :=
  assocs.foldl (fun acc p => replaceChar p.1 p.2 acc) l

/-- Sequential application of all `DANGEROUS_CHARS` replacements, in the
iteration order of the source dict. -/
def applyDangerous (l : List Char) : List Char :=
  foldReplace DANGEROUS_CHARS l

/-- Kernel of `re.sub(r"\.\.+", "", ...)`: `n` counts the pending run of
dots; a run of length one is emitted, longer runs are dropped. -/
def rdrGo : List Char → Nat → List Char
  | [], n => if n = 1 then ['.'] else []
  | c :: rest, n =>
    if c = '.' then rdrGo rest (n + 1)
    else (if n = 1 then ['.'] else []) ++ c :: rdrGo rest 0

/-- Removal of every run of two or more dots (`re.sub(r"\.\.+", "", ...)`). -/
def removeDotRuns (l : List Char) : List Char := rdrGo l 0

/-- Collapse of every run of two or more copies of `d` to a single copy
(`re.sub(d + "{2,}", d, ...)`). -/
def collapseRuns (d : Char) : List Char → List Char
  | [] => []
  | [c] => [c]
  | a :: b :: rest =>
    if a = d ∧ b = d then collapseRuns d (b :: rest)
    else a :: collapseRuns d (b :: rest)

/-- Removal of the maximal trailing run of characters satisfying `p`. -/
def dropTrailing (p : Char → Bool) : List Char → List Char
  | [] => []
  | c :: rest =>
    let r := dropTrailing p rest
    if r.isEmpty ∧ p c then [] else c :: r

/-- Characters stripped by `str.strip(" .")`. -/
def isSpaceDot (c : Char) : Bool := c = ' ' || c = '.'

/-- Python `str.strip(" .")`: drop leading and trailing spaces and dots. -/
def stripSpaceDot (l : List Char) : List Char :=
  dropTrailing isSpaceDot (l.dropWhile isSpaceDot)

/-- The `WINDOWS_RESERVED` device names of sanitize_filename.py. -/
def WINDOWS_RESERVED : List (List Char) :=
  ["CON", "PRN", "AUX", "NUL",
   "COM1", "COM2", "COM3", "COM4", "COM5", "COM6", "COM7", "COM8", "COM9",
   "LPT1", "LPT2", "LPT3", "LPT4", "LPT5", "LPT6", "LPT7", "LPT8",
   "LPT9"].map String.data

/-- Test `result.upper().split(".")[0] in WINDOWS_RESERVED`. -/
def isReserved (l : List Char) : Bool :=
  decide (((l.map pyUpper).takeWhile (fun c => c ≠ '.')) ∈ WINDOWS_RESERVED)

/-- The sanitize pipeline before the truncation step: dangerous-character
replacement, control removal, dot-run removal, separator collapsing,
stripping, and the Windows reserved-name prefix (sanitize_filename.py
lines 66-89). -/
def preTrunc (l : List Char) : List Char :=
  let r1 := applyDangerous (nfc l)
  let r2 := r1.filter (fun c => !isCatC c)
  let r3 := removeDotRuns r2
  let r4 := collapseRuns ' ' (collapseRuns '_' (collapseRuns '-' r3))
  let r5 := stripSpaceDot r4
  if isReserved r5 then '_' :: r5 else r5

/-- Python slice `l[:n]` for an `Int` bound: a negative bound counts from
the end, clamped at zero. -/
def pyTakeInt (n : Int) (l : List Char) : List Char :=
  if 0 ≤ n then l.take n.toNat else l.take (l.length - (-n).toNat)

/-- Last ten characters, `result[-10:]`. -/
def lastTen (l : List Char) : List Char := l.drop (l.length - 10)

/-- Segment after the last dot (`str.rsplit(".", 1)[1]`, assuming a dot
occurs). -/
def extAfterLastDot (l : List Char) : List Char :=
  ((l.reverse).takeWhile (fun c => c ≠ '.')).reverse

/-- Segment before the last dot (`str.rsplit(".", 1)[0]`, assuming a dot
occurs). -/
def nameBeforeLastDot (l : List Char) : List Char :=
  (((l.reverse).dropWhile (fun c => c ≠ '.')).tail).reverse

/-- The length-limiting step of sanitize_filename.py (lines 91-99): when the
result is longer than `maxLen` and a dot occurs in its last ten characters,
keep the extension after the last dot and cut the name part to
`maxLen - len(ext) - 1` characters (a Python slice, so a negative bound
counts from the end); otherwise cut to `maxLen` characters. -/
def truncStep (maxLen : Nat) (l : List Char) : List Char :=
  if maxLen < l.length then
    if '.' ∈ lastTen l then
      let ext := extAfterLastDot l
      let np := nameBeforeLastDot l
      pyTakeInt ((maxLen : Int) - ext.length - 1) np ++ '.' :: ext
    else l.take maxLen
  else l

/-- Embedding of `sanitize_filename` (sanitize_filename.py lines 42-105) on
character lists. -/
def sanitizeList (l : List Char) (maxLen : Nat) : List Char :=
  if l.isEmpty then "unnamed".data
  else
    let r := truncStep maxLen (preTrunc l)
    if r.isEmpty then "unnamed".data else r

/-- Embedding of `sanitize_filename` on strings. -/
def sanitize_filename (s : String) (maxLen : Nat := 100) : String :=
  String.mk (sanitizeList s.data maxLen)

/-- No two adjacent occurrences of the character `d` in the list: the
invariant established by `collapseRuns d` and, for the dot, by
`removeDotRuns`. -/
def noAdjPair (d : Char) : List Char → Bool
  | [] => true
  | [_] => true
  | a :: b :: rest => !(a == d && b == d) && noAdjPair d (b :: rest)

/-- Head test used for the reserved-name analysis: every Windows reserved
device name begins with one of `C`, `P`, `A`, `N`, `L`. -/
def headCPANL : List Char → Bool
  | [] => false
  | c :: _ => c = 'C' || c = 'P' || c = 'A' || c = 'N' || c = 'L'

/-! ## safe_download.py

The downloader is embedded as a state transformer.  The network is an
oracle value (`NetEvent`) fixing what this invocation observes: either
`urlopen` raises, or it yields a response with an optional declared
`Content-Length`, the list of successive non-empty chunks delivered by
`response.read`, and an optional error raised by the read following the
listed chunks (`none` meaning a clean end of stream, i.e. `read` returns an
empty chunk).  The filesystem is reduced to the three locations the
function touches: the destination's parent directory, the destination
path, and the one uniquely-named `.download_*.tmp` file `mkstemp` creates
in that directory. -/

/-- The exceptions `safe_download` catches (safe_download.py lines 106-113). -/
inductive NetErr where
  | httpError (code : Nat) (reason : String)
  | urlError (reason : String)
  | timedOut
  | otherExc (msg : String)
deriving DecidableEq

/-- Failure message for each caught exception, as formatted by the source. -/
def errMsg (timeout : Nat) : NetErr → String
  | .httpError code reason => "HTTP error " ++ toString code ++ ": " ++ reason
  | .urlError reason => "URL error: " ++ reason
  | .timedOut => "Download timed out after " ++ toString timeout ++ " seconds"
  | .otherExc msg => "Download failed: " ++ msg

/-- What the network does during one invocation. -/
inductive NetEvent where
  | openError (e : NetErr)
  | response (contentLength : Option Nat) (chunks : List (List Nat))
      (readErr : Option NetErr)

/-- The filesystem locations `safe_download` touches.  `dest` and `temp`
hold the byte content of the destination file and of this call's temporary
file when they exist. -/
structure FS where
  parentExists : Bool
  dest : Option (List Nat)
  temp : Option (List Nat)
deriving DecidableEq

/-- The chunk loop of safe_download.py lines 84-95: accumulate chunks into
the temp file while tracking the running total; `none` signals the
mid-stream abort once the total exceeds `maxSize`. -/
def streamChunks (maxSize : Nat) : List (List Nat) → Nat → List Nat →
    Option (Nat × List Nat)
  | [], downloaded, written => some (downloaded, written)
  | chunk :: rest, downloaded, written =>
    let d := downloaded + chunk.length
    if maxSize < d then none
    else streamChunks maxSize rest d (written ++ chunk)

/-- Streaming phase of `safe_download` after the Content-Length check:
either the size abort, the read error after the listed chunks, or the
atomic move of the temp content onto the destination. -/
def downloadBody (output : String) (fs2 : FS) (maxSize timeout : Nat)
    (chunks : List (List Nat)) (readErr : Option NetErr) : (Bool × String) × FS :=
  match streamChunks maxSize chunks 0 [] with
  | none =>
    ((false, "Download exceeded max size (" ++ toString maxSize ++ " bytes)"),
      { fs2 with temp := none })
  | some (downloaded, content) =>
    match readErr with
    | some e => ((false, errMsg timeout e), { fs2 with temp := none })
    | none =>
      ((true, "Downloaded " ++ toString downloaded ++ " bytes to " ++ output),
        { fs2 with dest := some content, temp := none })

/-- Embedding of `safe_download` (safe_download.py lines 34-126).  `output`
is the string rendering of the destination path.  The `finally` block's
cleanup is reflected by `temp := none` on every exit path except the
committed move, where the temp file has become the destination. -/
def safe_download (url output : String) (net : NetEvent) (fs : FS)
    (maxSize timeout : Nat) : (Bool × String) × FS :=
  let v := validate_url url
  if v.1 then
    let fs2 : FS := { fs with parentExists := true, temp := some [] }
    match net with
    | .openError e => ((false, errMsg timeout e), { fs2 with temp := none })
    | .response contentLength chunks readErr =>
      match contentLength with
      | some n =>
        if maxSize < n then
          ((false, "File too large: " ++ toString n ++ " bytes (max " ++
              toString maxSize ++ ")"), { fs2 with temp := none })
        else downloadBody output fs2 maxSize timeout chunks readErr
      | none => downloadBody output fs2 maxSize timeout chunks readErr
  else ((false, "Invalid URL: " ++ v.2), fs)

/-! ## vtt_to_text.py -/

/-- Kernel of Python `str.splitlines` restricted to the `\n`, `\r\n` and
`\r` line breaks. -/
def splitlinesGo : List Char → List Char → List (List Char)
  | [], acc => if acc.isEmpty then [] else [acc.reverse]
  | '\r' :: '\n' :: rest, acc => acc.reverse :: splitlinesGo rest []
  | '\r' :: rest, acc => acc.reverse :: splitlinesGo rest []
  | '\n' :: rest, acc => acc.reverse :: splitlinesGo rest []
  | c :: rest, acc => splitlinesGo rest (c :: acc)

/-- Python `str.splitlines`. -/
def pySplitlines (l : List Char) : List (List Char) := splitlinesGo l []

/-- ASCII whitespace stripped by `str.strip()`. -/
def isPyWs (c : Char) : Bool :=
  c = ' ' || c = '\t' || c = '\n' || c = '\r' ||
  c = Char.ofNat 11 || c = Char.ofNat 12

/-- Python `str.strip()` with no argument. -/
def pyStripWs (l : List Char) : List Char :=
  dropTrailing isPyWs (l.dropWhile isPyWs)

/-- Character class of the cue-identifier regex `^[\da-f-]+$` applied with
`re.IGNORECASE`: decimal digits, the letters a-f in either case, and the
hyphen. -/
def isHexDashChar (c : Char) : Bool :=
  c.isDigit || ('a' ≤ c && c ≤ 'f') || ('A' ≤ c && c ≤ 'F') || c = '-'

/-- The metadata line markers of vtt_to_text.py line 51. -/
def vttMeta : List (List Char) :=
  ["Kind:", "Language:", "NOTE", "STYLE", "REGION"].map String.data

/-- One-pass scanner for `re.sub(r"<[^>]*>", "", ...)`: outside a tag,
`'<'` opens a span buffered (in reverse) in `buf`; the first `'>'` closes
and discards the whole span; a span still open at the end of input is
emitted verbatim, because the regex only matches complete tags. -/
def rtGo : List Char → Option (List Char) → List Char
  | [], none => []
  | [], some buf => buf.reverse
  | c :: rest, none =>
    if c = '<' then rtGo rest (some ['<']) else c :: rtGo rest none
  | c :: rest, some buf =>
    if c = '>' then rtGo rest none else rtGo rest (some (c :: buf))

/-- Removal of complete `<...>` tags (`re.sub(r"<[^>]*>", "", ...)`). -/
def removeTags (l : List Char) : List Char := rtGo l none

/-- One-pass scanner for `re.sub(r"</?c[^>]*>", "", ...)`: a `'<'`
followed by `c` or `/c` opens a candidate span, closed and discarded at
the first `'>'`; any other `'<'` is ordinary text, and an unclosed span is
emitted verbatim. -/
def rcGo : List Char → Option (List Char) → List Char
  | [], none => []
  | [], some buf => buf.reverse
  | c :: rest, none =>
    if c = '<' ∧ (startsWithList ['c'] rest ∨ startsWithList ['/', 'c'] rest) then
      rcGo rest (some ['<'])
    else c :: rcGo rest none
  | c :: rest, some buf =>
    if c = '>' then rcGo rest none else rcGo rest (some (c :: buf))

/-- Removal of `<c...>` and `</c...>` tags
(`re.sub(r"</?c[^>]*>", "", ...)`); a no-op after `removeTags`, kept for
faithfulness to the source pipeline. -/
def removeCTags (l : List Char) : List Char := rcGo l none

/-- Decoding of HTML character references (`html.unescape`), modelled on
the basic named and decimal entities the captions use; the full HTML5
entity table is outside the model. -/
def htmlUnescape : List Char → List Char
  | [] => []
  | '&' :: 'a' :: 'm' :: 'p' :: ';' :: rest => '&' :: htmlUnescape rest
  | '&' :: 'l' :: 't' :: ';' :: rest => '<' :: htmlUnescape rest
  | '&' :: 'g' :: 't' :: ';' :: rest => '>' :: htmlUnescape rest
  | '&' :: 'q' :: 'u' :: 'o' :: 't' :: ';' :: rest =>
    '"' :: htmlUnescape rest
  | '&' :: '#' :: '3' :: '9' :: ';' :: rest =>
    Char.ofNat 39 :: htmlUnescape rest
  | '&' :: 'n' :: 'b' :: 's' :: 'p' :: ';' :: rest =>
    Char.ofNat 160 :: htmlUnescape rest
  | c :: rest => c :: htmlUnescape rest

/-- Per-line processing of vtt_to_text.py lines 39-76: strip, skip the
header, metadata, cue-identifier and timestamp lines, remove markup,
decode entities, strip again, and drop the line when empty; `some clean`
is the cleaned caption text that proceeds to deduplication. -/
def cleanLine (raw : List Char) : Option (List Char) :=
  let line := pyStripWs raw
  if line.isEmpty then none
  else if startsWithList "WEBVTT".data line then none
  else if vttMeta.any (fun m => startsWithList m line) then none
  else if line.all isHexDashChar then none
  else if containsSub "-->".data line then none
  else
    let c1 := removeTags line
    let c2 := removeCTags c1
    let c3 := htmlUnescape c2
    let clean := pyStripWs c3
    if clean.isEmpty then none else some clean

/-- One step of the deduplication loop: `seen` is the membership set,
`out` the emitted lines in order (vtt_to_text.py lines 79-81). -/
def vttStep (st : List (List Char) × List (List Char)) (raw : List Char) :
    List (List Char) × List (List Char) :=
  match cleanLine raw with
  | none => st
  | some clean =>
    if clean ∈ st.1 then st else (clean :: st.1, st.2 ++ [clean])

/-- Embedding of `vtt_to_text` (vtt_to_text.py lines 19-83). -/
def vtt_to_text (content : String) : String :=
  let st := (pySplitlines content.data).foldl vttStep ([], [])
  String.intercalate "\n" (st.2.map fun l => String.mk l)

/-- The deduplication core of `vttStep` on an already-cleaned line, used to
compare the seen-set fold against the recursive specification below. -/
def dedupStep (st : List (List Char) × List (List Char)) (c : List Char) :
    List (List Char) × List (List Char) :=
  if c ∈ st.1 then st else (c :: st.1, st.2 ++ [c])

/-- Specification-style first-occurrence deduplication: keep each element's
first occurrence, deleting every later repeat. -/
def firstSeen : List (List Char) → List (List Char)
  | [] => []
  | x :: xs => x :: firstSeen (xs.filter (fun y => y ≠ x))
termination_by l => l.length
decreasing_by
  have := List.length_filter_le (fun y => y ≠ x) xs
  simp only [List.length_cons]
  omega

/-! ## Stream loop lemmas -/

theorem streamChunks_none {maxSize : Nat} :
    ∀ (chunks : List (List Nat)) (d : Nat) (acc : List Nat),
      d ≤ maxSize → maxSize < d + (chunks.map List.length).sum →
      streamChunks maxSize chunks d acc = none := by
  intro chunks
  induction chunks with
  | nil => intro d acc hd hover; simp at hover; omega
  | cons chunk rest ih =>
    intro d acc hd hover
    simp only [streamChunks]
    by_cases hc : maxSize < d + chunk.length
    · simp [hc]
    · have hle : d + chunk.length ≤ maxSize := by omega
      have hover' : maxSize < d + chunk.length + (rest.map List.length).sum := by
        simp only [List.map_cons, List.sum_cons] at hover
        omega
      simp only [hc, if_false]
      exact ih (d + chunk.length) (acc ++ chunk) hle hover'

theorem streamChunks_some {maxSize : Nat} :
    ∀ (chunks : List (List Nat)) (d : Nat) (acc : List Nat),
      d + (chunks.map List.length).sum ≤ maxSize →
      streamChunks maxSize chunks d acc =
        some (d + (chunks.map List.length).sum, acc ++ chunks.flatten) := by
  intro chunks
  induction chunks with
  | nil => intro d acc _; simp [streamChunks]
  | cons chunk rest ih =>
    intro d acc hle
    simp only [List.map_cons, List.sum_cons] at hle
    have hc : ¬ maxSize < d + chunk.length := by omega
    simp only [streamChunks, hc, if_false]
    rw [ih (d + chunk.length) (acc ++ chunk) (by omega)]
    simp only [List.flatten_cons, List.map_cons, List.sum_cons, List.append_assoc]
    congr 2
    omega

/-! ## Replacement-table lemmas -/

theorem foldReplace_nil (l : List Char) : foldReplace [] l = l := rfl

theorem foldReplace_cons (p : Char × List Char) (ps : List (Char × List Char))
    (l : List Char) :
    foldReplace (p :: ps) l = foldReplace ps (replaceChar p.1 p.2 l) := rfl

theorem mem_replaceChar {x c : Char} {rep : List Char} :
    ∀ {l : List Char}, x ∈ replaceChar c rep l → x ∈ l ∨ x ∈ rep := by
  intro l
  induction l with
  | nil => intro h; simp [replaceChar] at h
  | cons a as ih =>
    intro h
    simp only [replaceChar] at h
    rcases List.mem_append.1 h with h1 | h2
    · by_cases hac : a = c
      · rw [if_pos hac] at h1
        exact Or.inr h1
      · rw [if_neg hac] at h1
        simp only [List.mem_singleton] at h1
        rw [h1]
        exact Or.inl (List.mem_cons_self a as)
    · rcases ih h2 with h3 | h3
      · exact Or.inl (List.mem_cons_of_mem a h3)
      · exact Or.inr h3

theorem not_mem_replaceChar {c : Char} {rep : List Char} (hrep : c ∉ rep) :
    ∀ (l : List Char), c ∉ replaceChar c rep l := by
  intro l
  induction l with
  | nil => simp [replaceChar]
  | cons a as ih =>
    simp only [replaceChar, List.mem_append]
    rintro (h1 | h2)
    · by_cases hac : a = c
      · rw [if_pos hac] at h1; exact hrep h1
      · rw [if_neg hac] at h1
        simp only [List.mem_singleton] at h1
        exact hac h1.symm
    · exact ih h2

theorem replaceChar_eq_self {c : Char} {rep : List Char} :
    ∀ {l : List Char}, c ∉ l → replaceChar c rep l = l := by
  intro l
  induction l with
  | nil => intro _; rfl
  | cons a as ih =>
    intro h
    simp only [List.mem_cons, not_or] at h
    simp only [replaceChar]
    rw [if_neg (fun hac : a = c => h.1 hac.symm), ih h.2, List.singleton_append]

theorem mem_foldReplace {x : Char} :
    ∀ (assocs : List (Char × List Char)) (l : List Char),
      x ∈ foldReplace assocs l → x ∈ l ∨ ∃ p ∈ assocs, x ∈ p.2 := by
  intro assocs
  induction assocs with
  | nil => intro l h; exact Or.inl h
  | cons p ps ih =>
    intro l h
    rw [foldReplace_cons] at h
    rcases ih _ h with h1 | h1
    · rcases mem_replaceChar h1 with h2 | h2
      · exact Or.inl h2
      · exact Or.inr ⟨p, List.mem_cons_self _ _, h2⟩
    · obtain ⟨q, hq, hx⟩ := h1
      exact Or.inr ⟨q, List.mem_cons_of_mem _ hq, hx⟩

theorem not_mem_foldReplace {c : Char} :
    ∀ (assocs : List (Char × List Char)) (l : List Char),
      c ∉ l → (∀ p ∈ assocs, c ∉ p.2) → c ∉ foldReplace assocs l := by
  intro assocs l hl hreps hmem
  rcases mem_foldReplace assocs l hmem with h | ⟨p, hp, hx⟩
  · exact hl h
  · exact hreps p hp hx

theorem key_not_mem_foldReplace {k : Char} {rep : List Char} :
    ∀ (assocs : List (Char × List Char)) (l : List Char),
      (k, rep) ∈ assocs → (∀ p ∈ assocs, k ∉ p.2) →
      k ∉ foldReplace assocs l := by
  intro assocs
  induction assocs with
  | nil => intro l hmem; simp at hmem
  | cons p ps ih =>
    intro l hmem hreps
    rw [foldReplace_cons]
    rcases List.mem_cons.1 hmem with heq | hmem'
    · have hkrep : k ∉ rep := by
        have := hreps p (List.mem_cons_self _ _)
        rw [← heq] at this
        exact this
      apply not_mem_foldReplace
      · rw [← heq]
        exact not_mem_replaceChar hkrep l
      · intro q hq
        exact hreps q (List.mem_cons_of_mem _ hq)
    · exact ih _ hmem' (fun q hq => hreps q (List.mem_cons_of_mem _ hq))

theorem foldReplace_eq_self :
    ∀ (assocs : List (Char × List Char)) (l : List Char),
      (∀ p ∈ assocs, p.1 ∉ l) → foldReplace assocs l = l := by
  intro assocs
  induction assocs with
  | nil => intro l _; rfl
  | cons p ps ih =>
    intro l h
    rw [foldReplace_cons, replaceChar_eq_self (h p (List.mem_cons_self _ _))]
    exact ih l (fun q hq => h q (List.mem_cons_of_mem _ hq))

theorem dangerous_key_not_mem {k : Char} {rep : List Char} (l : List Char)
    (hmem : (k, rep) ∈ DANGEROUS_CHARS) : k ∉ applyDangerous l := by
  have h2 : ∀ p ∈ DANGEROUS_CHARS, k ∉ p.2 := by
    fin_cases hmem <;> decide
  exact key_not_mem_foldReplace _ _ hmem h2

theorem applyDangerous_eq_self {l : List Char}
    (h : ∀ p ∈ DANGEROUS_CHARS, p.1 ∉ l) : applyDangerous l = l :=
  foldReplace_eq_self _ _ h

/-! ## Run-collapsing lemmas -/

theorem noAdjPair_cons_cons {d a b : Char} {l : List Char} :
    noAdjPair d (a :: b :: l) = (!(a == d && b == d) && noAdjPair d (b :: l)) :=
  rfl

theorem noAdjPair_tail {d a : Char} {l : List Char}
    (h : noAdjPair d (a :: l) = true) : noAdjPair d l = true := by
  cases l with
  | nil => rfl
  | cons b rest =>
    rw [noAdjPair_cons_cons, Bool.and_eq_true] at h
    exact h.2

theorem noAdjPair_cons_of_ne {d c : Char} {l : List Char} (hc : c ≠ d)
    (h : noAdjPair d l = true) : noAdjPair d (c :: l) = true := by
  cases l with
  | nil => rfl
  | cons b rest =>
    rw [noAdjPair_cons_cons, Bool.and_eq_true]
    refine ⟨?_, h⟩
    have : (c == d) = false := beq_eq_false_iff_ne.2 hc
    simp [this]

theorem mem_collapseRuns {x d : Char} :
    ∀ {l : List Char}, x ∈ collapseRuns d l → x ∈ l := by
  intro l
  induction l with
  | nil => intro h; exact h
  | cons a rest ih =>
    intro h
    cases rest with
    | nil => exact h
    | cons b rest' =>
      simp only [collapseRuns] at h
      split at h
      · exact List.mem_cons_of_mem a (ih h)
      · rcases List.mem_cons.1 h with h1 | h1
        · rw [h1]; exact List.mem_cons_self _ _
        · exact List.mem_cons_of_mem a (ih h1)

theorem collapseRuns_cons_head (d : Char) :
    ∀ (l : List Char) (a : Char), ∃ t, collapseRuns d (a :: l) = a :: t := by
  intro l
  induction l with
  | nil => intro a; exact ⟨[], rfl⟩
  | cons b rest ih =>
    intro a
    by_cases h : a = d ∧ b = d
    · obtain ⟨t, ht⟩ := ih b
      refine ⟨t, ?_⟩
      simp only [collapseRuns, if_pos h]
      rw [ht, h.2, ← h.1]
    · exact ⟨collapseRuns d (b :: rest), by simp only [collapseRuns, if_neg h]⟩

theorem noAdjPair_collapseRuns_self (d : Char) :
    ∀ (l : List Char), noAdjPair d (collapseRuns d l) = true := by
  intro l
  induction l with
  | nil => rfl
  | cons a rest ih =>
    cases rest with
    | nil => rfl
    | cons b rest' =>
      simp only [collapseRuns]
      split
      · exact ih
      · next hcond =>
        obtain ⟨t, ht⟩ := collapseRuns_cons_head d rest' b
        rw [ht, noAdjPair_cons_cons, Bool.and_eq_true]
        refine ⟨?_, ht ▸ ih⟩
        rcases Decidable.not_and_iff_or_not.1 hcond with h1 | h1
        · have : (a == d) = false := beq_eq_false_iff_ne.2 h1
          simp [this]
        · have : (b == d) = false := beq_eq_false_iff_ne.2 h1
          simp [this]

theorem noAdjPair_collapseRuns_other {e d : Char} :
    ∀ {l : List Char}, noAdjPair e l = true →
      noAdjPair e (collapseRuns d l) = true := by
  intro l
  induction l with
  | nil => intro h; exact h
  | cons a rest ih =>
    intro h
    cases rest with
    | nil => exact h
    | cons b rest' =>
      simp only [collapseRuns]
      split
      · exact ih (noAdjPair_tail h)
      · obtain ⟨t, ht⟩ := collapseRuns_cons_head d rest' b
        rw [ht, noAdjPair_cons_cons, Bool.and_eq_true]
        rw [noAdjPair_cons_cons, Bool.and_eq_true] at h
        exact ⟨h.1, ht ▸ ih h.2⟩

theorem collapseRuns_eq_self {d : Char} :
    ∀ {l : List Char}, noAdjPair d l = true → collapseRuns d l = l := by
  intro l
  induction l with
  | nil => intro _; rfl
  | cons a rest ih =>
    intro h
    cases rest with
    | nil => rfl
    | cons b rest' =>
      rw [noAdjPair_cons_cons, Bool.and_eq_true] at h
      have hcond : ¬ (a = d ∧ b = d) := by
        rintro ⟨h1, h2⟩
        rw [h1, h2] at h
        simp at h
      simp only [collapseRuns, if_neg hcond]
      rw [ih h.2]

/-! ## Dot-run removal lemmas -/

theorem mem_rdrGo {x : Char} :
    ∀ (l : List Char) (n : Nat), x ∈ rdrGo l n → x ∈ l ∨ x = '.' := by
  intro l
  induction l with
  | nil =>
    intro n h
    simp only [rdrGo] at h
    split at h
    · simp only [List.mem_singleton] at h
      exact Or.inr h
    · simp at h
  | cons c rest ih =>
    intro n h
    simp only [rdrGo] at h
    by_cases hc : c = '.'
    · rw [if_pos hc] at h
      rcases ih _ h with h1 | h1
      · exact Or.inl (List.mem_cons_of_mem _ h1)
      · exact Or.inr h1
    · rw [if_neg hc] at h
      rcases List.mem_append.1 h with h1 | h1
      · split at h1
        · simp only [List.mem_singleton] at h1
          exact Or.inr h1
        · simp at h1
      · rcases List.mem_cons.1 h1 with h2 | h2
        · rw [h2]; exact Or.inl (List.mem_cons_self _ _)
        · rcases ih _ h2 with h3 | h3
          · exact Or.inl (List.mem_cons_of_mem _ h3)
          · exact Or.inr h3

theorem mem_removeDotRuns {x : Char} {l : List Char}
    (h : x ∈ removeDotRuns l) : x ∈ l ∨ x = '.' :=
  mem_rdrGo l 0 h

theorem noAdjPair_rdrGo (l : List Char) :
    ∀ (n : Nat), noAdjPair '.' (rdrGo l n) = true := by
  induction l with
  | nil =>
    intro n
    simp only [rdrGo]
    split <;> rfl
  | cons c rest ih =>
    intro n
    simp only [rdrGo]
    by_cases hc : c = '.'
    · rw [if_pos hc]; exact ih _
    · rw [if_neg hc]
      by_cases hn : n = 1
      · rw [if_pos hn]
        rw [List.singleton_append, noAdjPair_cons_cons, Bool.and_eq_true]
        refine ⟨?_, noAdjPair_cons_of_ne hc (ih 0)⟩
        have : (c == '.') = false := beq_eq_false_iff_ne.2 hc
        simp [this]
      · rw [if_neg hn, List.nil_append]
        exact noAdjPair_cons_of_ne hc (ih 0)

theorem noAdjPair_removeDotRuns (l : List Char) :
    noAdjPair '.' (removeDotRuns l) = true :=
  noAdjPair_rdrGo l 0

theorem rdrGo_eq_self :
    ∀ (l : List Char),
      (noAdjPair '.' l = true → rdrGo l 0 = l) ∧
      (noAdjPair '.' ('.' :: l) = true → rdrGo l 1 = '.' :: l) := by
  intro l
  induction l with
  | nil => exact ⟨fun _ => rfl, fun _ => rfl⟩
  | cons c rest ih =>
    constructor
    · intro h
      by_cases hc : c = '.'
      · subst hc
        simp only [rdrGo, if_pos rfl]
        exact ih.2 h
      · simp only [rdrGo, if_neg hc]
        rw [if_neg (by omega : ¬ (0 : Nat) = 1), List.nil_append,
          ih.1 (noAdjPair_tail h)]
    · intro h
      have hc : c ≠ '.' := by
        intro hceq
        rw [hceq, noAdjPair_cons_cons] at h
        simp at h
      simp only [rdrGo, if_neg hc]
      rw [ih.1 (noAdjPair_tail (noAdjPair_tail h))]
      simp

theorem removeDotRuns_eq_self {l : List Char}
    (h : noAdjPair '.' l = true) : removeDotRuns l = l :=
  (rdrGo_eq_self l).1 h

/-! ## Strip lemmas -/

theorem mem_dropTrailing {x : Char} {p : Char → Bool} :
    ∀ {l : List Char}, x ∈ dropTrailing p l → x ∈ l := by
  intro l
  induction l with
  | nil => intro h; exact h
  | cons c rest ih =>
    intro h
    simp only [dropTrailing] at h
    split at h
    · exact absurd h (List.not_mem_nil x)
    · rcases List.mem_cons.1 h with h1 | h1
      · rw [h1]; exact List.mem_cons_self _ _
      · exact List.mem_cons_of_mem _ (ih h1)

theorem dropTrailing_cons_cases (p : Char → Bool) (a : Char) (l : List Char) :
    dropTrailing p (a :: l) = [] ∨
    ∃ t, dropTrailing p (a :: l) = a :: t := by
  simp only [dropTrailing]
  split
  · exact Or.inl rfl
  · exact Or.inr ⟨_, rfl⟩

theorem noAdjPair_dropTrailing {d : Char} {p : Char → Bool} :
    ∀ {l : List Char}, noAdjPair d l = true →
      noAdjPair d (dropTrailing p l) = true := by
  intro l
  induction l with
  | nil => intro h; exact h
  | cons c rest ih =>
    intro h
    simp only [dropTrailing]
    split
    · rfl
    · cases hrest : dropTrailing p rest with
      | nil => rfl
      | cons b t =>
        cases rest with
        | nil => simp [dropTrailing] at hrest
        | cons b' rest' =>
          have hb : b = b' := by
            rcases dropTrailing_cons_cases p b' rest' with h0 | ⟨t', ht'⟩
            · rw [h0] at hrest; cases hrest
            · rw [ht'] at hrest
              exact (List.cons.injEq _ _ _ _ ▸ hrest).1.symm
          rw [noAdjPair_cons_cons, Bool.and_eq_true]
          constructor
          · rw [noAdjPair_cons_cons, Bool.and_eq_true] at h
            rw [hb]
            exact h.1
          · rw [← hrest]
            exact ih (noAdjPair_tail h)

theorem noAdjPair_dropWhile {d : Char} {p : Char → Bool} :
    ∀ {l : List Char}, noAdjPair d l = true →
      noAdjPair d (l.dropWhile p) = true := by
  intro l
  induction l with
  | nil => intro h; exact h
  | cons c rest ih =>
    intro h
    rw [List.dropWhile_cons]
    split
    · exact ih (noAdjPair_tail h)
    · exact h

theorem noAdjPair_stripSpaceDot {d : Char} {l : List Char}
    (h : noAdjPair d l = true) : noAdjPair d (stripSpaceDot l) = true :=
  noAdjPair_dropTrailing (noAdjPair_dropWhile h)

theorem dropWhile_head_not {p : Char → Bool} :
    ∀ {l : List Char} {c : Char} {t : List Char},
      l.dropWhile p = c :: t → p c = false := by
  intro l
  induction l with
  | nil => intro c t h; cases h
  | cons a rest ih =>
    intro c t h
    rw [List.dropWhile_cons] at h
    split at h
    · exact ih h
    · next hcond =>
      have ha : a = c := (List.cons.injEq _ _ _ _ ▸ h).1
      rw [← ha]
      exact Bool.not_eq_true _ ▸ hcond

theorem mem_stripSpaceDot {x : Char} {l : List Char}
    (h : x ∈ stripSpaceDot l) : x ∈ l :=
  List.dropWhile_subset _ (mem_dropTrailing h)

theorem dropTrailing_getLast {p : Char → Bool} :
    ∀ {l : List Char} {c : Char},
      (dropTrailing p l).getLast? = some c → p c = false := by
  intro l
  induction l with
  | nil => intro c h; cases h
  | cons a rest ih =>
    intro c h
    simp only [dropTrailing] at h
    split at h
    · cases h
    · next hcond =>
      cases hrest : dropTrailing p rest with
      | nil =>
        rw [hrest] at h
        simp only [List.getLast?_singleton, Option.some.injEq] at h
        rw [hrest] at hcond
        simp only [List.isEmpty_nil, true_and] at hcond
        rw [← h]
        exact Bool.not_eq_true _ ▸ hcond
      | cons b t =>
        rw [hrest, List.getLast?_cons_cons] at h
        exact ih (hrest ▸ h)

theorem dropTrailing_eq_self {p : Char → Bool} :
    ∀ {l : List Char},
      (∀ c, l.getLast? = some c → p c = false) → dropTrailing p l = l := by
  intro l
  induction l with
  | nil => intro _; rfl
  | cons a rest ih =>
    intro h
    cases rest with
    | nil =>
      have hpa : p a = false := h a (by simp)
      simp [dropTrailing, hpa]
    | cons b rest' =>
      have hrec : dropTrailing p (b :: rest') = b :: rest' :=
        ih (fun c hc => h c (by rw [List.getLast?_cons_cons]; exact hc))
      show (if (dropTrailing p (b :: rest')).isEmpty ∧ p a then []
          else a :: dropTrailing p (b :: rest')) = a :: b :: rest'
      rw [hrec]
      simp

theorem dropWhile_eq_self_of_head {p : Char → Bool} :
    ∀ {l : List Char}, (∀ c t, l = c :: t → p c = false) →
      l.dropWhile p = l := by
  intro l h
  cases l with
  | nil => rfl
  | cons c rest =>
    rw [List.dropWhile_cons, if_neg]
    rw [h c rest rfl]
    simp

theorem stripSpaceDot_getLast {l : List Char} {c : Char}
    (h : (stripSpaceDot l).getLast? = some c) : isSpaceDot c = false :=
  dropTrailing_getLast h

theorem stripSpaceDot_head {l : List Char} {c : Char} {t : List Char}
    (h : stripSpaceDot l = c :: t) : isSpaceDot c = false := by
  unfold stripSpaceDot at h
  cases hdw : l.dropWhile isSpaceDot with
  | nil => rw [hdw] at h; cases h
  | cons a t' =>
    rw [hdw] at h
    rcases dropTrailing_cons_cases isSpaceDot a t' with h0 | ⟨t2, ht2⟩
    · rw [h0] at h; cases h
    · rw [ht2] at h
      have ha : a = c := (List.cons.injEq _ _ _ _ ▸ h).1
      rw [← ha]
      exact dropWhile_head_not hdw

theorem stripSpaceDot_eq_self {l : List Char}
    (h1 : ∀ c t, l = c :: t → isSpaceDot c = false)
    (h2 : ∀ c, l.getLast? = some c → isSpaceDot c = false) :
    stripSpaceDot l = l := by
  unfold stripSpaceDot
  rw [dropWhile_eq_self_of_head h1]
  exact dropTrailing_eq_self h2

theorem stripSpaceDot_idem (l : List Char) :
    stripSpaceDot (stripSpaceDot l) = stripSpaceDot l := by
  apply stripSpaceDot_eq_self
  · intro c t h; exact stripSpaceDot_head h
  · intro c h; exact stripSpaceDot_getLast h

theorem stripSpaceDot_eq_nil {l : List Char}
    (h : ∀ x ∈ l, isSpaceDot x = true) : stripSpaceDot l = [] := by
  unfold stripSpaceDot
  rw [List.dropWhile_eq_nil_iff.2 h]
  rfl

/-! ## Reserved-name lemmas -/

theorem reserved_all_headCPANL : ∀ n ∈ WINDOWS_RESERVED, headCPANL n = true := by
  decide

theorem takeWhile_head {p : Char → Bool} :
    ∀ {l : List Char} {x : Char} {xs : List Char},
      l.takeWhile p = x :: xs → ∃ t, l = x :: t := by
  intro l x xs h
  cases l with
  | nil => cases h
  | cons c rest =>
    rw [List.takeWhile_cons] at h
    split at h
    · have hcx : c = x := by injection h
      exact ⟨rest, by rw [hcx]⟩
    · cases h

theorem isReserved_head {l : List Char} (h : isReserved l = true) :
    ∃ c t, l = c :: t ∧
      (pyUpper c = 'C' ∨ pyUpper c = 'P' ∨ pyUpper c = 'A' ∨
        pyUpper c = 'N' ∨ pyUpper c = 'L') := by
  unfold isReserved at h
  rw [decide_eq_true_iff] at h
  have hhead := reserved_all_headCPANL _ h
  cases hnu : (l.map pyUpper).takeWhile (fun c => c ≠ '.') with
  | nil => rw [hnu] at hhead; cases hhead
  | cons x xs =>
    rw [hnu] at hhead
    obtain ⟨t, ht⟩ := takeWhile_head hnu
    cases l with
    | nil => cases ht
    | cons c t' =>
      simp only [List.map_cons] at ht
      have hx : pyUpper c = x := (List.cons.injEq _ _ _ _ ▸ ht).1
      refine ⟨c, t', rfl, ?_⟩
      rw [hx]
      simp only [headCPANL, Bool.or_eq_true, decide_eq_true_iff] at hhead
      tauto

theorem isReserved_head_ne {l : List Char} (h : isReserved l = true) :
    ∃ c t, l = c :: t ∧ c ≠ '_' := by
  obtain ⟨c, t, hl, hc⟩ := isReserved_head h
  refine ⟨c, t, hl, ?_⟩
  intro hceq
  rw [hceq] at hc
  rcases hc with h1 | h1 | h1 | h1 | h1 <;> exact absurd h1 (by decide)

theorem isReserved_underscore (t : List Char) :
    isReserved ('_' :: t) = false := by
  unfold isReserved
  rw [decide_eq_false_iff_not]
  intro hmem
  have hhead := reserved_all_headCPANL _ hmem
  rw [List.map_cons, List.takeWhile_cons, if_pos (by decide)] at hhead
  simp [headCPANL, pyUpper] at hhead

/-! ## preTrunc invariants -/

theorem noAdj_stage5 (l : List Char) :
    noAdjPair '.' (stripSpaceDot (collapseRuns ' ' (collapseRuns '_'
      (collapseRuns '-' (removeDotRuns l))))) = true ∧
    noAdjPair '-' (stripSpaceDot (collapseRuns ' ' (collapseRuns '_'
      (collapseRuns '-' (removeDotRuns l))))) = true ∧
    noAdjPair '_' (stripSpaceDot (collapseRuns ' ' (collapseRuns '_'
      (collapseRuns '-' (removeDotRuns l))))) = true ∧
    noAdjPair ' ' (stripSpaceDot (collapseRuns ' ' (collapseRuns '_'
      (collapseRuns '-' (removeDotRuns l))))) = true := by
  refine ⟨?_, ?_, ?_, ?_⟩
  · exact noAdjPair_stripSpaceDot (noAdjPair_collapseRuns_other
      (noAdjPair_collapseRuns_other (noAdjPair_collapseRuns_other
        (noAdjPair_removeDotRuns l))))
  · exact noAdjPair_stripSpaceDot (noAdjPair_collapseRuns_other
      (noAdjPair_collapseRuns_other (noAdjPair_collapseRuns_self '-' _)))
  · exact noAdjPair_stripSpaceDot (noAdjPair_collapseRuns_other
      (noAdjPair_collapseRuns_self '_' _))
  · exact noAdjPair_stripSpaceDot (noAdjPair_collapseRuns_self ' ' _)

theorem preTrunc_mem {x : Char} {l : List Char} (h : x ∈ preTrunc l) :
    x ∈ (applyDangerous l).filter (fun c => !isCatC c) ∨ x = '.' ∨ x = '_' := by
  simp only [preTrunc, nfc] at h
  have hstage : ∀ y : Char,
      y ∈ stripSpaceDot (collapseRuns ' ' (collapseRuns '_' (collapseRuns '-'
        (removeDotRuns ((applyDangerous l).filter (fun c => !isCatC c)))))) →
      y ∈ (applyDangerous l).filter (fun c => !isCatC c) ∨ y = '.' ∨ y = '_' := by
    intro y hy
    have hy4 := mem_stripSpaceDot hy
    have hy3 := mem_collapseRuns (mem_collapseRuns (mem_collapseRuns hy4))
    rcases mem_removeDotRuns hy3 with h1 | h1
    · exact Or.inl h1
    · exact Or.inr (Or.inl h1)
  split at h
  · rcases List.mem_cons.1 h with h1 | h1
    · exact Or.inr (Or.inr h1)
    · exact hstage x h1
  · exact hstage x h

theorem preTrunc_no_dangerous (l : List Char) :
    ∀ p ∈ DANGEROUS_CHARS, p.1 ∉ preTrunc l := by
  intro p hp hmem
  rcases preTrunc_mem hmem with h | h | h
  · have hx : p.1 ∈ applyDangerous l := (List.mem_filter.1 h).1
    have hkey : (p.1, p.2) ∈ DANGEROUS_CHARS := by rwa [Prod.mk.eta]
    exact dangerous_key_not_mem l hkey hx
  · have hno : ∀ q ∈ DANGEROUS_CHARS, q.1 ≠ '.' := by decide
    exact hno p hp h
  · have hno : ∀ q ∈ DANGEROUS_CHARS, q.1 ≠ '_' := by decide
    exact hno p hp h

theorem preTrunc_no_catC (l : List Char) :
    ∀ x ∈ preTrunc l, isCatC x = false := by
  intro x hx
  rcases preTrunc_mem hx with h | h | h
  · have := (List.mem_filter.1 h).2
    simpa using this
  · rw [h]; rfl
  · rw [h]; rfl

theorem preTrunc_noAdj_dot (l : List Char) :
    noAdjPair '.' (preTrunc l) = true := by
  simp only [preTrunc, nfc]
  split
  · exact noAdjPair_cons_of_ne (by decide) (noAdj_stage5 _).1
  · exact (noAdj_stage5 _).1

theorem preTrunc_noAdj_dash (l : List Char) :
    noAdjPair '-' (preTrunc l) = true := by
  simp only [preTrunc, nfc]
  split
  · exact noAdjPair_cons_of_ne (by decide) (noAdj_stage5 _).2.1
  · exact (noAdj_stage5 _).2.1

theorem preTrunc_noAdj_space (l : List Char) :
    noAdjPair ' ' (preTrunc l) = true := by
  simp only [preTrunc, nfc]
  split
  · exact noAdjPair_cons_of_ne (by decide) (noAdj_stage5 _).2.2.2
  · exact (noAdj_stage5 _).2.2.2

theorem preTrunc_noAdj_us (l : List Char) :
    noAdjPair '_' (preTrunc l) = true := by
  simp only [preTrunc, nfc]
  split
  · next hres =>
    obtain ⟨c, t, hl5, hc⟩ := isReserved_head_ne hres
    rw [hl5, noAdjPair_cons_cons, Bool.and_eq_true]
    constructor
    · have : (c == '_') = false := beq_eq_false_iff_ne.2 hc
      simp [this]
    · rw [← hl5]
      exact (noAdj_stage5 _).2.2.1
  · exact (noAdj_stage5 _).2.2.1

theorem preTrunc_strip (l : List Char) :
    stripSpaceDot (preTrunc l) = preTrunc l := by
  simp only [preTrunc, nfc]
  split
  · next hres =>
    obtain ⟨c, t, hl5, -⟩ := isReserved_head_ne hres
    apply stripSpaceDot_eq_self
    · intro c' t' heq
      have : c' = '_' := by
        have := (List.cons.injEq _ _ _ _ ▸ heq).1
        exact this.symm
      rw [this]; rfl
    · intro c' hlast
      rw [hl5, List.getLast?_cons_cons] at hlast
      exact stripSpaceDot_getLast (by rw [hl5]; exact hlast)
  · exact stripSpaceDot_idem _

theorem preTrunc_not_reserved (l : List Char) :
    isReserved (preTrunc l) = false := by
  simp only [preTrunc, nfc]
  split
  · exact isReserved_underscore _
  · next hres =>
    exact Bool.not_eq_true _ ▸ hres

theorem preTrunc_idem (l : List Char) : preTrunc (preTrunc l) = preTrunc l := by
  have h2 : applyDangerous (preTrunc l) = preTrunc l :=
    applyDangerous_eq_self (preTrunc_no_dangerous l)
  have h3 : (preTrunc l).filter (fun c => !isCatC c) = preTrunc l :=
    List.filter_eq_self.2 (fun a ha => by rw [preTrunc_no_catC l a ha]; rfl)
  have h4 : removeDotRuns (preTrunc l) = preTrunc l :=
    removeDotRuns_eq_self (preTrunc_noAdj_dot l)
  have h5 : collapseRuns '-' (preTrunc l) = preTrunc l :=
    collapseRuns_eq_self (preTrunc_noAdj_dash l)
  have h6 : collapseRuns '_' (preTrunc l) = preTrunc l :=
    collapseRuns_eq_self (preTrunc_noAdj_us l)
  have h7 : collapseRuns ' ' (preTrunc l) = preTrunc l :=
    collapseRuns_eq_self (preTrunc_noAdj_space l)
  have h8 : stripSpaceDot (preTrunc l) = preTrunc l := preTrunc_strip l
  have h9 : isReserved (preTrunc l) = false := preTrunc_not_reserved l
  generalize hr : preTrunc l = r at h2 h3 h4 h5 h6 h7 h8 h9 ⊢
  simp only [preTrunc, nfc, h2, h3, h4, h5, h6, h7, h8, h9, Bool.false_eq_true,
    if_false]

/-! ## sanitizeList facts -/

theorem sanitizeList_unnamed {maxLen : Nat} (hseven : 7 ≤ maxLen) :
    sanitizeList ("unnamed".data) maxLen = "unnamed".data := by
  have hpt : preTrunc ("unnamed".data) = "unnamed".data := by decide
  have htr : truncStep maxLen ("unnamed".data) = "unnamed".data := by
    unfold truncStep
    rw [if_neg (show ¬ maxLen < ("unnamed".data).length by
      have h7 : ("unnamed".data).length = 7 := rfl
      omega)]
  unfold sanitizeList
  rw [if_neg (by decide), hpt, htr, if_neg (by decide)]

theorem sanitizeList_idem (l : List Char) (maxLen : Nat)
    (hfit : (preTrunc l).length ≤ maxLen) (hseven : 7 ≤ maxLen) :
    sanitizeList (sanitizeList l maxLen) maxLen = sanitizeList l maxLen := by
  have hcases : sanitizeList l maxLen = "unnamed".data ∨
      (sanitizeList l maxLen = preTrunc l ∧ (preTrunc l).isEmpty = false) := by
    unfold sanitizeList
    by_cases hl : l.isEmpty
    · rw [if_pos hl]; exact Or.inl rfl
    · rw [if_neg hl]
      have htr : truncStep maxLen (preTrunc l) = preTrunc l := by
        unfold truncStep
        rw [if_neg (by omega)]
      rw [htr]
      by_cases hr : (preTrunc l).isEmpty
      · rw [if_pos hr]; exact Or.inl rfl
      · rw [if_neg hr]
        exact Or.inr ⟨rfl, Bool.not_eq_true _ ▸ hr⟩
  rcases hcases with h | ⟨h, hne⟩
  · rw [h, sanitizeList_unnamed hseven]
  · rw [h]
    unfold sanitizeList
    rw [if_neg (by simp [hne]), preTrunc_idem]
    have htr : truncStep maxLen (preTrunc l) = preTrunc l := by
      unfold truncStep
      rw [if_neg (by omega)]
    rw [htr, if_neg (by simp [hne])]

theorem length_takeWhile_lt_of_mem_take :
    ∀ (l : List Char) (n : Nat), '.' ∈ l.take n →
      (l.takeWhile (fun c => c ≠ '.')).length < n := by
  intro l
  induction l with
  | nil => intro n h; simp at h
  | cons c rest ih =>
    intro n h
    cases n with
    | zero => simp at h
    | succ m =>
      rw [List.take_succ_cons] at h
      by_cases hc : c = '.'
      · subst hc
        rw [List.takeWhile_cons]
        simp
      · rcases List.mem_cons.1 h with h1 | h1
        · exact absurd h1.symm hc
        · have := ih m h1
          rw [List.takeWhile_cons, if_pos (by simp [hc])]
          simp only [List.length_cons]
          omega

theorem ext_length_le {t : List Char} (h : '.' ∈ lastTen t) :
    (extAfterLastDot t).length ≤ 9 := by
  have h1 : '.' ∈ (t.drop (t.length - 10)).reverse := List.mem_reverse.2 h
  have hsplit : t.reverse =
      (t.drop (t.length - 10)).reverse ++ (t.take (t.length - 10)).reverse := by
    rw [← List.reverse_append, List.take_append_drop]
  have hlen : ((t.drop (t.length - 10)).reverse).length ≤ 10 := by
    rw [List.length_reverse, List.length_drop]
    omega
  have h2 : '.' ∈ t.reverse.take 10 := by
    rw [hsplit, List.take_append_eq_append_take, List.take_of_length_le hlen]
    exact List.mem_append_left _ h1
  have h3 := length_takeWhile_lt_of_mem_take t.reverse 10 h2
  unfold extAfterLastDot
  rw [List.length_reverse]
  omega

theorem truncStep_length_le (t : List Char) {maxLen : Nat}
    (h10 : 10 ≤ maxLen) : (truncStep maxLen t).length ≤ maxLen := by
  unfold truncStep
  by_cases htr : maxLen < t.length
  · rw [if_pos htr]
    by_cases hdot : '.' ∈ lastTen t
    · rw [if_pos hdot]
      have hext := ext_length_le hdot
      simp only [List.length_append, List.length_cons]
      have hp : (pyTakeInt ((maxLen : Int) - (extAfterLastDot t).length - 1)
          (nameBeforeLastDot t)).length ≤
          maxLen - (extAfterLastDot t).length - 1 := by
        unfold pyTakeInt
        rw [if_pos (by omega)]
        have htn : (((maxLen : Int) - (extAfterLastDot t).length - 1)).toNat =
            maxLen - (extAfterLastDot t).length - 1 := by omega
        rw [htn, List.length_take]
        omega
      omega
    · rw [if_neg hdot, List.length_take]
      omega
  · rw [if_neg htr]
    omega

theorem sanitizeList_length_le (l : List Char) {maxLen : Nat}
    (h10 : 10 ≤ maxLen) : (sanitizeList l maxLen).length ≤ maxLen := by
  unfold sanitizeList
  by_cases hl : l.isEmpty
  · rw [if_pos hl]
    have : ("unnamed".data).length = 7 := rfl
    omega
  · rw [if_neg hl]
    by_cases hr : (truncStep maxLen (preTrunc l)).isEmpty
    · rw [if_pos hr]
      have : ("unnamed".data).length = 7 := rfl
      omega
    · rw [if_neg hr]
      exact truncStep_length_le _ h10

theorem sanitizeList_ext_suffix (l : List Char) {maxLen : Nat}
    (htr : maxLen < (preTrunc l).length) (hdot : '.' ∈ lastTen (preTrunc l)) :
    ('.' :: extAfterLastDot (preTrunc l)) <:+ sanitizeList l maxLen := by
  have hlne : l.isEmpty = false := by
    cases l with
    | nil =>
      exfalso
      have h0 : (preTrunc ([] : List Char)).length = 0 := rfl
      omega
    | cons a t => rfl
  unfold sanitizeList
  rw [if_neg (by simp [hlne])]
  have htrunc : truncStep maxLen (preTrunc l) =
      pyTakeInt ((maxLen : Int) - (extAfterLastDot (preTrunc l)).length - 1)
        (nameBeforeLastDot (preTrunc l)) ++
      '.' :: extAfterLastDot (preTrunc l) := by
    unfold truncStep
    rw [if_pos htr, if_pos hdot]
  rw [htrunc, if_neg (by simp)]
  exact List.suffix_append _ _

theorem sanitizeList_space_dot {l : List Char} {maxLen : Nat}
    (h : ∀ c ∈ l, c = ' ' ∨ c = '.') :
    sanitizeList l maxLen = "unnamed".data := by
  unfold sanitizeList
  by_cases hl : l.isEmpty
  · rw [if_pos hl]
  · rw [if_neg hl]
    have hclean : ∀ p ∈ DANGEROUS_CHARS, p.1 ∉ l := by
      intro p hp hmem
      have hno : ∀ q ∈ DANGEROUS_CHARS, q.1 ≠ ' ' ∧ q.1 ≠ '.' := by decide
      rcases h _ hmem with h1 | h1
      · exact (hno p hp).1 h1
      · exact (hno p hp).2 h1
    have hAD : applyDangerous l = l := applyDangerous_eq_self hclean
    have hfilter : l.filter (fun c => !isCatC c) = l :=
      List.filter_eq_self.2 (fun a ha => by
        rcases h a ha with h1 | h1 <;> (rw [h1]; rfl))
    have hmemr : ∀ x ∈ collapseRuns ' ' (collapseRuns '_' (collapseRuns '-'
        (removeDotRuns l))), x = ' ' ∨ x = '.' := by
      intro x hx
      have hx3 := mem_collapseRuns (mem_collapseRuns (mem_collapseRuns hx))
      rcases mem_removeDotRuns hx3 with h1 | h1
      · exact h x h1
      · exact Or.inr h1
    have hstrip : stripSpaceDot (collapseRuns ' ' (collapseRuns '_'
        (collapseRuns '-' (removeDotRuns l)))) = [] :=
      stripSpaceDot_eq_nil (fun x hx => by
        rcases hmemr x hx with h1 | h1 <;> (rw [h1]; rfl))
    have hpt : preTrunc l = [] := by
      simp only [preTrunc, nfc, hAD, hfilter, hstrip]
      rw [if_neg (by decide)]
    rw [hpt]
    have htr : truncStep maxLen ([] : List Char) = [] := by
      unfold truncStep
      rw [if_neg (by simp)]
    rw [htr, if_pos (by decide)]

/-! ## Claim theorems for sanitize_filename -/

/-- C6 counterexample: `sanitize_filename` is not idempotent.  At
`("a.b", 2)` the extension-preserving truncation emits `".b"`, whose
leading dot the second application strips to `"b"`. -/
theorem sanitize_filename_not_idempotent :
    sanitize_filename (sanitize_filename "a.b" 2) 2 ≠ sanitize_filename "a.b" 2 := by
  decide

/-- C6 amended: for ASCII inputs (on which the NFC normalization the model
treats as the identity really is the identity), `sanitize_filename` is
idempotent whenever the first application performs no truncation — the
pipeline result fits in `max_length` — and `max_length` is at least 7 so
the `"unnamed"` fallback also fits. -/
theorem sanitize_filename_idem_no_trunc (s : String) (maxLen : Nat)
    (_hascii : ∀ c ∈ s.data, c.toNat < 128)
    (hfit : (preTrunc s.data).length ≤ maxLen) (hseven : 7 ≤ maxLen) :
    sanitize_filename (sanitize_filename s maxLen) maxLen =
      sanitize_filename s maxLen := by
  unfold sanitize_filename
  have h := sanitizeList_idem s.data maxLen hfit hseven
  exact congrArg String.mk h

/-- C6 witness at `"report v1.txt"` with the default limit. -/
theorem sanitize_filename_idem_no_trunc_witness :
    sanitize_filename (sanitize_filename "report v1.txt" 100) 100 =
      sanitize_filename "report v1.txt" 100 :=
  sanitize_filename_idem_no_trunc "report v1.txt" 100 (by decide) (by decide)
    (by decide)

/-- C7 counterexample: for the positive limit `max_length = 2` the
extension-preserving branch overshoots — the Python slice bound
`max_length - len(ext) - 1` is negative, so `name_part[:-3]` keeps five
characters and the result `"abcde.wxyz"` has length 10 > 2. -/
theorem sanitize_filename_small_max_overflow :
    0 < 2 ∧ 2 < (sanitize_filename "abcdefgh.wxyz" 2).length := by
  decide

/-- C7 amended: once `max_length ≥ 10` (so that `max_length` exceeds the
length of any extension found within the final ten characters), the result
length is bounded by `max_length`; and whenever truncation fires with a
dot inside the final ten characters of the pre-truncation string, the
extension after the last dot survives as a suffix of the result. -/
theorem sanitize_filename_length_amended (s : String) (maxLen : Nat)
    (h10 : 10 ≤ maxLen) :
    (sanitize_filename s maxLen).length ≤ maxLen ∧
    (maxLen < (preTrunc s.data).length → '.' ∈ lastTen (preTrunc s.data) →
      ('.' :: extAfterLastDot (preTrunc s.data)) <:+
        (sanitize_filename s maxLen).data) :=
  ⟨sanitizeList_length_le s.data h10,
   fun htr hdot => sanitizeList_ext_suffix s.data htr hdot⟩

/-- C7 witness: a long name with a `.txt` extension truncated to ten
characters keeps the extension and respects the bound. -/
theorem sanitize_filename_length_amended_witness :
    (sanitize_filename "a-very-long-document-name.txt" 10).length ≤ 10 ∧
    (10 < (preTrunc ("a-very-long-document-name.txt").data).length →
      '.' ∈ lastTen (preTrunc ("a-very-long-document-name.txt").data) →
      ('.' :: extAfterLastDot (preTrunc ("a-very-long-document-name.txt").data)) <:+
        (sanitize_filename "a-very-long-document-name.txt" 10).data) :=
  sanitize_filename_length_amended "a-very-long-document-name.txt" 10
    (by decide)

/-- C8 counterexample: the path separator `"/"` is a separator character,
yet `sanitize_filename` maps it to `"_"` (the dangerous-character table
replaces `/` with `_` before stripping), not to `"unnamed"`. -/
theorem sanitize_filename_slash_not_unnamed :
    sanitize_filename "/" 100 ≠ "unnamed" := by
  decide

/-- C8 amended: `sanitize_filename("") = "unnamed"` holds, and every input
made only of spaces and dots collapses to `"unnamed"`; path separators,
however, are replaced by underscores and survive, so they must be excluded
from the separator set of the claim. -/
theorem sanitize_filename_space_dot_unnamed (s : String) (maxLen : Nat)
    (h : ∀ c ∈ s.data, c = ' ' ∨ c = '.') :
    sanitize_filename s maxLen = "unnamed" := by
  unfold sanitize_filename
  rw [sanitizeList_space_dot h]

/-- C8 witness: the empty string and a space-and-dots string both give
`"unnamed"`. -/
theorem sanitize_filename_space_dot_unnamed_witness :
    sanitize_filename "" 100 = "unnamed" ∧
    sanitize_filename " .. " 100 = "unnamed" :=
  ⟨sanitize_filename_space_dot_unnamed "" 100 (by decide),
   sanitize_filename_space_dot_unnamed " .. " 100 (by decide)⟩

/-! ## Claim theorems -/

/-- C1: the spec's §4.1 denylist claim.  The code itself is wrong about the
bracketed IPv6 entries: `urlparse(...).hostname` strips the square
brackets, so the source patterns `^\[::1\]$` and `^\[fe80:` can never
match and `validate_url` ACCEPTS `http://[::1]/api` and
`http://[fe80::1]/api`, contradicting the repository's own tests
(test_validate_url.py lines 115-121).  The remaining rows of the denylist
behave as claimed, including the 172.16-31 boundary. -/
theorem validate_url_denylist_eval :
    validate_url "http://[::1]/api" = (true, "valid") ∧
    validate_url "http://[fe80::1]/api" = (true, "valid") ∧
    validate_url "http://localhost/admin" =
      (false, "Internal/localhost URLs not allowed") ∧
    validate_url "http://127.0.0.1/secret" =
      (false, "Internal/localhost URLs not allowed") ∧
    validate_url "http://10.0.0.1/internal" =
      (false, "Internal/localhost URLs not allowed") ∧
    validate_url "http://192.168.1.1/router" =
      (false, "Internal/localhost URLs not allowed") ∧
    validate_url "http://0.0.0.0/api" =
      (false, "Internal/localhost URLs not allowed") ∧
    validate_url "http://169.254.1.1/x" =
      (false, "Internal/localhost URLs not allowed") ∧
    validate_url "http://172.16.0.1/private" =
      (false, "Internal/localhost URLs not allowed") ∧
    validate_url "http://172.31.255.255/api" =
      (false, "Internal/localhost URLs not allowed") ∧
    validate_url "http://172.15.0.1/public" = (true, "valid") ∧
    validate_url "http://172.32.0.1/" = (true, "valid") := by
  decide

/-- C4: a URL rejected by the validator makes `safe_download` fail
immediately with the wrapped reason and leave the filesystem state —
parent directory, temporary file, destination — exactly as it was. -/
theorem safe_download_invalid_url (url output : String) (net : NetEvent)
    (fs : FS) (maxSize timeout : Nat)
    (h : (validate_url url).1 = false) :
    safe_download url output net fs maxSize timeout =
      ((false, "Invalid URL: " ++ (validate_url url).2), fs) := by
  simp only [safe_download, h, Bool.false_eq_true, if_false]

/-- C4 witness at a concrete blocked URL and untouched filesystem. -/
theorem safe_download_invalid_url_witness :
    safe_download "http://localhost/file" "out.txt" (.openError .timedOut)
        { parentExists := false, dest := none, temp := none } 1000 300 =
      ((false, "Invalid URL: Internal/localhost URLs not allowed"),
       { parentExists := false, dest := none, temp := none }) := by
  have h := safe_download_invalid_url "http://localhost/file" "out.txt"
    (.openError .timedOut)
    { parentExists := false, dest := none, temp := none } 1000 300 (by decide)
  rw [h]
  rfl

/-- C2: whenever `safe_download` returns a failure, this call's temporary
file is gone and the destination path holds exactly what it held before
the call (in particular it is neither created nor modified).  The
hypothesis `fs.temp = none` says the fresh `mkstemp` name did not already
exist, which its uniqueness guarantees. -/
theorem safe_download_failure_cleanup (url output : String) (net : NetEvent)
    (fs : FS) (maxSize timeout : Nat) (htemp : fs.temp = none)
    (hfail : (safe_download url output net fs maxSize timeout).1.1 = false) :
    (safe_download url output net fs maxSize timeout).2.temp = none ∧
    (safe_download url output net fs maxSize timeout).2.dest = fs.dest := by
  by_cases hv : (validate_url url).1
  · simp only [safe_download, hv, if_true] at hfail ⊢
    cases net with
    | openError e => simp
    | response cl chunks readErr =>
      have hbody : ∀ fs2 : FS,
          (downloadBody output fs2 maxSize timeout chunks readErr).1.1 = false →
          (downloadBody output fs2 maxSize timeout chunks readErr).2.temp = none ∧
          (downloadBody output fs2 maxSize timeout chunks readErr).2.dest =
            fs2.dest := by
        intro fs2 hf
        simp only [downloadBody] at hf ⊢
        cases hs : streamChunks maxSize chunks 0 [] with
        | none => simp [hs]
        | some pr =>
          cases readErr with
          | some e => simp [hs]
          | none => simp [hs] at hf
      cases cl with
      | some n =>
        by_cases hn : maxSize < n
        · simp [hn]
        · simp only [hn, if_false] at hfail ⊢
          exact hbody _ hfail
      | none => exact hbody _ hfail
  · simp only [safe_download, hv, Bool.false_eq_true, if_false] at hfail ⊢
    simp [htemp]

/-- C2 witness: a mid-stream size abort on an initially clean directory. -/
theorem safe_download_failure_cleanup_witness :
    (safe_download "https://example.com/f" "out.txt"
        (.response none [[7, 7], [7, 7]] none)
        { parentExists := true, dest := some [1], temp := none } 3 300).2.temp =
      none ∧
    (safe_download "https://example.com/f" "out.txt"
        (.response none [[7, 7], [7, 7]] none)
        { parentExists := true, dest := some [1], temp := none } 3 300).2.dest =
      some [1] :=
  safe_download_failure_cleanup "https://example.com/f" "out.txt"
    (.response none [[7, 7], [7, 7]] none)
    { parentExists := true, dest := some [1], temp := none } 3 300
    rfl (by decide)

/-- C3: with no declared Content-Length and a streamed body longer than
`maxSize`, the download aborts with the size-exceeded message naming the
limit, the temporary file is gone, and the destination is untouched (so
still absent when absent before). -/
theorem safe_download_size_exceeded (url output : String) (fs : FS)
    (maxSize timeout : Nat) (chunks : List (List Nat)) (readErr : Option NetErr)
    (hv : (validate_url url).1 = true)
    (hover : maxSize < (chunks.map List.length).sum) :
    safe_download url output (.response none chunks readErr) fs maxSize timeout =
      ((false, "Download exceeded max size (" ++ toString maxSize ++ " bytes)"),
       { parentExists := true, dest := fs.dest, temp := none }) := by
  simp only [safe_download, hv, if_true, downloadBody]
  rw [streamChunks_none chunks 0 [] (Nat.zero_le _) (by simpa using hover)]

/-- C3 witness: two two-byte chunks against a three-byte limit on an
initially empty directory. -/
theorem safe_download_size_exceeded_witness :
    safe_download "https://example.com/streaming-file" "out.txt"
        (.response none [[1, 2], [3, 4]] none)
        { parentExists := false, dest := none, temp := none } 3 300 =
      ((false, "Download exceeded max size (3 bytes)"),
       { parentExists := true, dest := none, temp := none }) := by
  have h := safe_download_size_exceeded "https://example.com/streaming-file"
    "out.txt" { parentExists := false, dest := none, temp := none } 3 300
    [[1, 2], [3, 4]] none (by decide) (by decide)
  rw [h]
  rfl

/-- C5: a clean download of N bytes within the limit succeeds, reports
exactly N bytes written and the destination path, and the destination file
holds exactly the response bytes.  The declared Content-Length, when
present, is the true body length. -/
theorem safe_download_success (url output : String) (fs : FS)
    (maxSize timeout : Nat) (chunks : List (List Nat)) (cl : Option Nat)
    (hv : (validate_url url).1 = true)
    (hcl : cl = none ∨ cl = some (chunks.map List.length).sum)
    (hN : (chunks.map List.length).sum ≤ maxSize) :
    safe_download url output (.response cl chunks none) fs maxSize timeout =
      ((true, "Downloaded " ++ toString (chunks.map List.length).sum ++
          " bytes to " ++ output),
       { parentExists := true, dest := some chunks.flatten, temp := none }) := by
  have hbody : downloadBody output
        { fs with parentExists := true, temp := some [] } maxSize timeout
        chunks none =
      ((true, "Downloaded " ++ toString (chunks.map List.length).sum ++
          " bytes to " ++ output),
       { parentExists := true, dest := some chunks.flatten, temp := none }) := by
    simp only [downloadBody]
    rw [streamChunks_some chunks 0 [] (by simpa using hN)]
    simp
  rcases hcl with hcl | hcl <;> subst hcl
  · simp only [safe_download, hv, if_true]
    exact hbody
  · have hn : ¬ maxSize < (chunks.map List.length).sum := by omega
    simp only [safe_download, hv, if_true, hn, if_false]
    exact hbody

/-- C5 witness: the thirteen-byte body used by the repository's own
successful-download test. -/
theorem safe_download_success_witness :
    safe_download "https://example.com/file.txt" "output.txt"
        (.response (some 13)
          [[72, 101, 108, 108, 111, 44, 32, 87, 111, 114, 108, 100, 33]] none)
        { parentExists := true, dest := none, temp := none } 104857600 300 =
      ((true, "Downloaded 13 bytes to output.txt"),
       { parentExists := true,
         dest := some [72, 101, 108, 108, 111, 44, 32, 87, 111, 114, 108, 100, 33],
         temp := none }) := by
  have h := safe_download_success "https://example.com/file.txt" "output.txt"
    { parentExists := true, dest := none, temp := none } 104857600 300
    [[72, 101, 108, 108, 111, 44, 32, 87, 111, 114, 108, 100, 33]] (some 13)
    (by decide) (by simp) (by simp)
  rw [h]
  rfl

/-! ## VTT deduplication lemmas -/

theorem foldl_vttStep_filterMap :
    ∀ (lines : List (List Char)) (st : List (List Char) × List (List Char)),
      lines.foldl vttStep st = (lines.filterMap cleanLine).foldl dedupStep st := by
  intro lines
  induction lines with
  | nil => intro st; rfl
  | cons raw rest ih =>
    intro st
    cases h : cleanLine raw with
    | none =>
      have hv : vttStep st raw = st := by simp [vttStep, h]
      rw [List.foldl_cons, hv, ih, List.filterMap_cons, h]
    | some c =>
      have hv : vttStep st raw = dedupStep st c := by simp [vttStep, dedupStep, h]
      rw [List.foldl_cons, hv, ih, List.filterMap_cons, h, List.foldl_cons]

theorem foldl_dedupStep_eq_firstSeen :
    ∀ (cs : List (List Char)) (seen out : List (List Char)),
      (cs.foldl dedupStep (seen, out)).2 =
        out ++ firstSeen (cs.filter (fun c => c ∉ seen)) := by
  intro cs
  induction cs with
  | nil => intro seen out; simp [firstSeen]
  | cons x rest ih =>
    intro seen out
    rw [List.foldl_cons]
    by_cases hx : x ∈ seen
    · have hstep : dedupStep (seen, out) x = (seen, out) := by
        simp [dedupStep, hx]
      rw [hstep, ih seen out, List.filter_cons]
      simp [hx]
    · have hstep : dedupStep (seen, out) x = (x :: seen, out ++ [x]) := by
        simp [dedupStep, hx]
      rw [hstep, ih (x :: seen) (out ++ [x]), List.filter_cons]
      have hcond : (decide (x ∉ seen)) = true := by simp [hx]
      rw [if_pos hcond, firstSeen]
      have hff : (rest.filter (fun c => c ∉ seen)).filter (fun y => y ≠ x) =
          rest.filter (fun c => c ∉ x :: seen) := by
        rw [List.filter_filter]
        apply List.filter_congr
        intro a _
        by_cases h1 : a = x <;> by_cases h2 : a ∈ seen <;> simp [h1, h2]
      rw [hff, List.append_assoc, List.singleton_append]

/-! ## Claim theorems for vtt_to_text -/

/-- C9: the emitted transcript is exactly the first-occurrence
deduplication of the cleaned caption lines, in input order, joined by
single newlines; in particular the progressive cues `Hello`, `Hello
world`, `Hello world today` come out once each, in that order. -/
theorem vtt_to_text_dedup_first_seen :
    (∀ content : String,
      vtt_to_text content = String.intercalate "\n"
        ((firstSeen ((pySplitlines content.data).filterMap cleanLine)).map
          (fun l => String.mk l))) ∧
    vtt_to_text "WEBVTT\n\n00:00:00.000 --> 00:00:01.000\nHello\n\n00:00:01.000 --> 00:00:02.000\nHello world\n\n00:00:02.000 --> 00:00:03.000\nHello world today" =
      "Hello\nHello world\nHello world today" := by
  constructor
  · intro content
    have hfilter : ((pySplitlines content.data).filterMap cleanLine).filter
        (fun c => c ∉ ([] : List (List Char))) =
        (pySplitlines content.data).filterMap cleanLine :=
      List.filter_eq_self.2 (fun a _ => by simp)
    simp only [vtt_to_text, foldl_vttStep_filterMap,
      foldl_dedupStep_eq_firstSeen, hfilter, List.nil_append]
  · decide

/-- C9 has no Prop hypothesis, but this instantiation records the general
equation at the three-cue input. -/
theorem vtt_to_text_dedup_first_seen_witness :
    vtt_to_text "WEBVTT\n\nHi\nHi\nBye" = String.intercalate "\n"
      ((firstSeen ((pySplitlines ("WEBVTT\n\nHi\nHi\nBye").data).filterMap
        cleanLine)).map (fun l => String.mk l)) :=
  (vtt_to_text_dedup_first_seen).1 "WEBVTT\n\nHi\nHi\nBye"

/-- C10: any stripped line consisting solely of hexadecimal digits and
hyphens matches the cue-identifier regex `^[\da-f-]+$` and is dropped by
`cleanLine` — even genuine English captions such as `dead`, `added`,
`decade`, `face` — while a line with any other character survives. -/
theorem vtt_hex_dash_lines_dropped :
    (∀ line : List Char, pyStripWs line ≠ [] →
      (pyStripWs line).all isHexDashChar = true → cleanLine line = none) ∧
    vtt_to_text "WEBVTT\n\n00:00:00.000 --> 00:00:01.000\ndead\nadded\ndecade\nface\nthis line stays" =
      "this line stays" := by
  constructor
  · intro line hne hall
    unfold cleanLine
    generalize hL : pyStripWs line = L at hne hall ⊢
    cases L with
    | nil => exact absurd rfl hne
    | cons c cs =>
      have hc : isHexDashChar c = true :=
        List.all_eq_true.1 hall c (List.mem_cons_self _ _)
      have hstarts : ∀ (p : Char) (ps : List Char), isHexDashChar p = false →
          startsWithList (p :: ps) (c :: cs) = false := by
        intro p ps hp
        show (p == c && startsWithList ps cs) = false
        have hpc : (p == c) = false := by
          rw [beq_eq_false_iff_ne]
          intro hpeq
          rw [hpeq, hc] at hp
          cases hp
        simp [hpc]
      have hW : startsWithList "WEBVTT".data (c :: cs) = false := by
        rw [show "WEBVTT".data = 'W' :: "EBVTT".data from rfl]
        exact hstarts 'W' _ (by decide)
      have hm1 : startsWithList "Kind:".data (c :: cs) = false := by
        rw [show "Kind:".data = 'K' :: "ind:".data from rfl]
        exact hstarts 'K' _ (by decide)
      have hm2 : startsWithList "Language:".data (c :: cs) = false := by
        rw [show "Language:".data = 'L' :: "anguage:".data from rfl]
        exact hstarts 'L' _ (by decide)
      have hm3 : startsWithList "NOTE".data (c :: cs) = false := by
        rw [show "NOTE".data = 'N' :: "OTE".data from rfl]
        exact hstarts 'N' _ (by decide)
      have hm4 : startsWithList "STYLE".data (c :: cs) = false := by
        rw [show "STYLE".data = 'S' :: "TYLE".data from rfl]
        exact hstarts 'S' _ (by decide)
      have hm5 : startsWithList "REGION".data (c :: cs) = false := by
        rw [show "REGION".data = 'R' :: "EGION".data from rfl]
        exact hstarts 'R' _ (by decide)
      have hmeta : vttMeta.any (fun m => startsWithList m (c :: cs)) = false := by
        simp only [vttMeta, List.map_cons, List.map_nil, List.any_cons,
          List.any_nil, hm1, hm2, hm3, hm4, hm5]
        rfl
      rw [if_neg (by simp), if_neg (by simp [hW]), if_neg (by simp [hmeta]),
        if_pos hall]
  · decide

/-- C10 witness: the English word `dead` is treated as a cue identifier. -/
theorem vtt_hex_dash_lines_dropped_witness :
    cleanLine ("dead".data) = none :=
  (vtt_hex_dash_lines_dropped).1 ("dead".data) (by decide) (by decide)

end Tapestry
